import Mathlib

/-!
Shallow embedding of the hex field-of-view engine of `calx-grid`
(`src/calx-grid/src/hex_fov.rs`), together with the hex-direction and
hex-distance utilities it consumes (module `hex`, which is not part of the
sources; those two definitions are modelled from the spec).

The source stores the angular position of a `PolarPoint` as an `f32`; the
spec's data model treats it as a real number.  It is embedded here as an
exact unnormalised fraction `Frac` with the arithmetic operations the source
applies to it, so that every definition is executable.  The recursive
`Iterator::next` of the source is embedded as a single non-recursive `step`
function (each `return self.next()` in the source becomes a `Step.cont`),
driven by a fuel-indexed runner `runF`.
-/

namespace CalxGrid

/-- Hex offsets relative to the origin: integer 2D vectors (`Vector2D<i32>`). -/
abbrev Offset : Type := ℤ × ℤ

/-- Modelled from the spec: the hex-direction utility (module `hex`, absent
from the sources) provides six unit "rod" vectors indexed 0..5 with floor
modulo; the vectors are fixed so that ring 1 agrees with the in-tree
`trivial_fov` test. -/
def dir6 (i : ℤ) : Offset :=
  if i % 6 = 0 then (-1, -1)
  else if i % 6 = 1 then (0, -1)
  else if i % 6 = 2 then (1, 0)
  else if i % 6 = 3 then (1, 1)
  else if i % 6 = 4 then (0, 1)
  else (-1, 0)

/-- Modelled from the spec: hex distance of an offset (trait `HexGeom`, absent
from the sources): when the componentwise signs agree the Chebyshev distance,
otherwise the taxicab sum. -/
def hexDist (v : Offset) : ℤ :=
  if v.1.sign = v.2.sign then max |v.1| |v.2| else |v.1| + |v.2|

/-- Exact unnormalised fraction standing in for the source's `f32` angular
position.  All denominators produced in this development are positive. -/
structure Frac where
  num : ℤ
  den : ℤ
deriving DecidableEq

namespace Frac

/-- Integer as a fraction. -/
def ofInt (n : ℤ) : Frac := ⟨n, 1⟩

/-- The constant 0.5 that the source adds to angular positions. -/
def half : Frac := ⟨1, 2⟩

/-- Fraction addition (unnormalised). -/
def add (f g : Frac) : Frac := ⟨f.num * g.den + g.num * f.den, f.den * g.den⟩

/-- Fraction multiplication (unnormalised). -/
def mul (f g : Frac) : Frac := ⟨f.num * g.num, f.den * g.den⟩

/-- Floor of the fraction; for a positive denominator `Int` division (which is
Euclidean) is exactly the floor. -/
def floor (f : Frac) : ℤ := f.num / f.den

/-- Ceiling of the fraction (for a positive denominator). -/
def ceil (f : Frac) : ℤ := -(-f.num / f.den)

end Frac

/-- Points on a hex circle expressed in polar coordinates
(`struct PolarPoint { pos: f32, radius: u32 }`). -/
structure PolarPoint where
  pos : Frac
  radius : ℕ
deriving DecidableEq

namespace PolarPoint

/-- Constructor mirroring `PolarPoint::new`. -/
def new (pos : Frac) (radius : ℕ) : PolarPoint := ⟨pos, radius⟩

/-- Index of the discrete hex cell along the circle that corresponds to this
point: `(self.pos + 0.5).floor()`. -/
def winding_index (p : PolarPoint) : ℤ := (p.pos.add Frac.half).floor

/-- End index for half-open interval comparison: `(self.pos + 0.5).ceil()`. -/
def end_index (p : PolarPoint) : ℤ := (p.pos.add Frac.half).ceil

/-- `self.winding_index() < other.end_index()`. -/
def is_below (p other : PolarPoint) : Bool := p.winding_index < other.end_index

/-- The point next to this one along the hex circle:
`PolarPoint::new((self.pos + 0.5).floor() + 0.5, self.radius)`. -/
def next (p : PolarPoint) : PolarPoint :=
  new ((Frac.ofInt (p.pos.add Frac.half).floor).add Frac.half) p.radius

/-- Cartesian hex offset of this point (`PolarPoint::to_v2`).  The `radius == 0`
case is dedicated; otherwise sector and edge offset are taken with floor
modulo, and in the source the inner division has a non-negative numerator, so
Euclidean division agrees with it. -/
def to_v2 (p : PolarPoint) : Offset :=
  if p.radius = 0 then (0, 0) else
  let index := p.winding_index
  let r : ℤ := (p.radius : ℤ)
  let sector := index % (r * 6) / r
  let offset := index % r
  let rod := dir6 sector
  let tangent := dir6 (sector + 2)
  (rod.1 * r + tangent.1 * offset, rod.2 * r + tangent.2 * offset)

/-- If this point and the next are adjacent vertically, the point outside the
circle between the two (`PolarPoint::side_point`). -/
def side_point (p : PolarPoint) : Option Offset :=
  let nxt := p.next
  let a := p.to_v2
  let b := nxt.to_v2
  if b.1 = a.1 + 1 ∧ b.2 = a.2 + 1 then some (a.1 + 1, a.2)
  else if b.1 = a.1 - 1 ∧ b.2 = a.2 - 1 then some (a.1 - 1, a.2)
  else none

/-- The corresponding point on the hex circle with radius one larger:
`PolarPoint::new(self.pos * (self.radius + 1) as f32 / self.radius as f32,
self.radius + 1)`. -/
def further (p : PolarPoint) : PolarPoint :=
  new (p.pos.mul ⟨(p.radius : ℤ) + 1, (p.radius : ℤ)⟩) (p.radius + 1)

end PolarPoint

/-- The caller-supplied capability contract (trait `FovValue`): `advance`
propagates a value one step outward along the line of sight,
`is_fake_isometric_wall` is the optional capability used by the corner special
case, defaulting to constantly false. -/
structure FovValue (T : Type) where
  advance : T → Offset → Option T
  is_fake_isometric_wall : T → Offset → Bool := fun _ _ => false

/-- A contiguous angular span on one ring sharing one propagated value
(`struct Arc<T>`).  The source's field `end` is a Lean keyword and is renamed
`end_`. -/
structure Arc (T : Type) where
  begin : PolarPoint
  pt : PolarPoint
  end_ : PolarPoint
  prev_value : T
  group_value : Option T

namespace Arc

/-- `Arc::new`: `group_value = prev_value.advance(begin.to_v2())`. -/
def new {T : Type} (F : FovValue T) (begin end_ : PolarPoint) (prev_value : T) : Arc T :=
  { begin := begin
    pt := begin
    end_ := end_
    prev_value := prev_value
    group_value := F.advance prev_value begin.to_v2 }

/-- `Arc::advance`: move `pt` one step; push the arc back while still below
`end`, else graduate the whole arc outward when the group value is `Some`. -/
def advance {T : Type} (F : FovValue T) (a : Arc T) (stack : List (Arc T)) : List (Arc T) :=
  let a := { a with pt := a.pt.next }
  if a.pt.is_below a.end_ then a :: stack
  else
    match a.group_value with
    | some group_value => Arc.new F a.begin.further a.end_.further group_value :: stack
    | none => stack

/-- `Arc::arc_has_split`: recompute the value at `pt`; on a change push a
continuation arc (and, when the old group value was `Some`, an extension arc
projected one ring outward) and report that a split happened. -/
def arc_has_split {T : Type} [DecidableEq T] (F : FovValue T) (a : Arc T)
    (stack : List (Arc T)) : List (Arc T) × Bool :=
  let next_value := F.advance a.prev_value a.pt.to_v2
  if next_value ≠ a.group_value then
    let stack :=
      ({ begin := a.pt
         pt := a.pt
         end_ := a.end_
         prev_value := a.prev_value
         group_value := next_value } : Arc T) :: stack
    let stack :=
      match a.group_value with
      | some group_value => Arc.new F a.begin.further a.pt.further group_value :: stack
      | none => stack
    (stack, true)
  else (stack, false)

end Arc

/-- Field of view iterator state (`struct HexFov<T>`): a LIFO stack of pending
arcs and the side channel of extra emissions.  Lists are used as stacks with
the head as the top. -/
structure HexFov (T : Type) where
  stack : List (Arc T)
  side_channel : List (Offset × T)

namespace HexFov

/-- `HexFov::new`: seed the stack with the full ring-1 arc and pre-load the
side channel with the origin. -/
def new {T : Type} (F : FovValue T) (init : T) : HexFov T :=
  { stack := [Arc.new F (PolarPoint.new (Frac.ofInt 0) 1) (PolarPoint.new (Frac.ofInt 6) 1) init]
    side_channel := [((0, 0), init)] }

/-- `HexFov::make_corners_visible`, returning the updated side channel: adds
the side point when the vertical-rim special-case conditions all hold. -/
def make_corners_visible {T : Type} [DecidableEq T] (F : FovValue T) (current : Arc T)
    (side_channel : List (Offset × T)) : List (Offset × T) :=
  match current.pt.side_point with
  | some side_pos =>
    let nxt := current.pt.next
    let next_value := F.advance current.prev_value nxt.to_v2
    if nxt.is_below current.end_ ∧
        F.is_fake_isometric_wall current.prev_value current.pt.to_v2 ∧
        next_value = F.advance current.prev_value current.pt.to_v2 then
      match next_value with
      | some next_value =>
        if F.is_fake_isometric_wall next_value nxt.to_v2 ∧
            F.advance next_value side_pos = none ∧
            F.is_fake_isometric_wall next_value side_pos then
          (side_pos, current.prev_value) :: side_channel
        else side_channel
      | none => side_channel
    else side_channel
  | none => side_channel

end HexFov

/-- Result of one pass of the body of the source's recursive `next`:
an emission, a silent continuation (the source's `return self.next()`), or
exhaustion. -/
inductive Step (T : Type) where
  | emit : Offset × T → HexFov T → Step T
  | cont : HexFov T → Step T
  | done : Step T

namespace HexFov

/-- One pass of the body of `HexFov::next`: drain the side channel first, else
pop an arc, handle a split silently, run the corner check, emit the current
cell when its group value is `Some` and continue silently otherwise. -/
def step {T : Type} [DecidableEq T] (F : FovValue T) (s : HexFov T) : Step T :=
  match s.side_channel with
  | ret :: side_rest => .emit ret ⟨s.stack, side_rest⟩
  | [] =>
    match s.stack with
    | [] => .done
    | current :: stack =>
      match Arc.arc_has_split F current stack with
      | (stack, true) => .cont ⟨stack, []⟩
      | (stack, false) =>
        let side_channel := make_corners_visible F current []
        let pos := current.pt.to_v2
        let ret := current.group_value
        let stack := Arc.advance F current stack
        match ret with
        | some ret => .emit (pos, ret) ⟨stack, side_channel⟩
        | none => .cont ⟨stack, side_channel⟩

/-- Fuel-indexed driver of `step`, collecting all emitted pairs in order; the
boolean is true when the iterator reported exhaustion within the fuel. -/
def runF {T : Type} [DecidableEq T] (F : FovValue T) : ℕ → HexFov T → List (Offset × T) × Bool
  | 0, _ => ([], false)
  | n + 1, s =>
    match step F s with
    | .done => ([], true)
    | .cont s => runF F n s
    | .emit e s =>
      let r := runF F n s
      (e :: r.1, r.2)

end HexFov

/-- The test fixture `Cell1` of the sources: the value carries a visibility
range, `advance` keeps propagating while the hex distance stays below it, and
the wall capability is left at its default. -/
def cell1 : FovValue ℤ :=
  { advance := fun v off => if hexDist off < v then some v else none }

/-- The test fixture `Cell2` of the sources: as `Cell1` but with
`is_fake_isometric_wall` constantly true. -/
def cell2 : FovValue ℤ :=
  { advance := fun v off => if hexDist off < v then some v else none
    is_fake_isometric_wall := fun _ _ => true }

/-- A caller value whose `advance` never stops propagation: every offset stays
transparent, so the iterator is unbounded. -/
def transparentFov : FovValue ℤ := { advance := fun v _ => some v }

/-- A caller value that caps the visibility radius at 2 independently of the
carried value. -/
def fixedRange : FovValue ℤ :=
  { advance := fun v off => if hexDist off < 2 then some v else none }

/-- Number of discrete cells (plus one sentinel) left in an arc's half-open
span, used as a termination measure. -/
def cells {T : Type} (a : Arc T) : ℕ := (a.end_.end_index - a.pt.winding_index).toNat

/-- 1 when the arc would split if popped now, 0 otherwise; part of the
termination measure. -/
def splMeasure {T : Type} [DecidableEq T] (F : FovValue T) (a : Arc T) : ℕ :=
  if F.advance a.prev_value a.pt.to_v2 = a.group_value then 0 else 1


/-- The radius invariant of an arc: all three polar points sit on the same
ring and that ring is at least ring 1. -/
def ArcWf {T : Type} (a : Arc T) : Prop :=
  a.begin.radius = a.pt.radius ∧ a.pt.radius = a.end_.radius ∧ 1 ≤ a.begin.radius

/-- Invariant for termination under a visibility radius `R`: the arc respects
the radius invariant, and once its ring is at distance `R` or more its group
value is opaque. -/
def GoodArc {T : Type} (F : FovValue T) (R : ℤ) (a : Arc T) : Prop :=
  ArcWf a ∧ (R ≤ (a.pt.radius : ℤ) → a.group_value = none)

/-- Reachability between iterator states through pulls of `step`. -/
inductive Reaches {T : Type} [DecidableEq T] (F : FovValue T) : HexFov T → HexFov T → Prop
  | refl (s : HexFov T) : Reaches F s s
  | emit {s t : HexFov T} {e : Offset × T} {t' : HexFov T} :
      Reaches F s t → HexFov.step F t = .emit e t' → Reaches F s t'
  | cont {s t t' : HexFov T} :
      Reaches F s t → HexFov.step F t = .cont t' → Reaches F s t'

/-- The iterator started at this state eventually reports exhaustion. -/
inductive Halts {T : Type} [DecidableEq T] (F : FovValue T) : HexFov T → Prop
  | done {s : HexFov T} : HexFov.step F s = .done → Halts F s
  | emit {s : HexFov T} {e : Offset × T} {s' : HexFov T} :
      HexFov.step F s = .emit e s' → Halts F s' → Halts F s
  | cont {s s' : HexFov T} :
      HexFov.step F s = .cont s' → Halts F s' → Halts F s

/-- Agreement of two step results up to the side channel of the resulting
state: same constructor, same emitted pair, same arc stack. -/
def StepAgree {T : Type} : Step T → Step T → Prop
  | .emit e₁ s₁, .emit e₂ s₂ => e₁ = e₂ ∧ s₁.stack = s₂.stack
  | .cont s₁, .cont s₂ => s₁.stack = s₂.stack
  | .done, .done => True
  | _, _ => False

/-- A ring-2 arc of the `cell1` scenario; every ring-2 cell is at hex
distance 2, so its group value is opaque. -/
def opaqueArc : Arc ℤ :=
  Arc.new cell1 (PolarPoint.new (Frac.ofInt 0) 2) (PolarPoint.new (Frac.ofInt 12) 2) 2

/-- A ring-1 arc positioned so that the value recomputed at `pt` differs from
its group value, forcing a split when popped. -/
def splitArc : Arc ℤ :=
  { begin := PolarPoint.new (Frac.ofInt 0) 1
    pt := PolarPoint.new ⟨1, 2⟩ 1
    end_ := PolarPoint.new (Frac.ofInt 6) 1
    prev_value := 1
    group_value := some 1 }

/-- The seed arc of the `cell1` scenario, used as a concrete advancing arc. -/
def seedArc : Arc ℤ :=
  Arc.new cell1 (PolarPoint.new (Frac.ofInt 0) 1) (PolarPoint.new (Frac.ofInt 6) 1) 2

/-! Helper lemmas about the embedded operations. -/

/-- Stepping a point adds exactly one to its winding index. -/
lemma winding_index_next (p : PolarPoint) : p.next.winding_index = p.winding_index + 1 := by
  simp only [PolarPoint.next, PolarPoint.winding_index, PolarPoint.new, Frac.add, Frac.ofInt,
    Frac.half, Frac.floor]
  omega

/-- Stepping a point keeps its radius. -/
lemma radius_next (p : PolarPoint) : p.next.radius = p.radius := rfl

/-- Characterisation of `arc_has_split`: the boolean reports exactly that the
recomputed value differs from the group value. -/
lemma arc_has_split_snd {T : Type} [DecidableEq T] (F : FovValue T) (a : Arc T)
    (stack : List (Arc T)) :
    (Arc.arc_has_split F a stack).2 = true ↔
      F.advance a.prev_value a.pt.to_v2 ≠ a.group_value := by
  by_cases h : F.advance a.prev_value a.pt.to_v2 = a.group_value <;>
    simp [Arc.arc_has_split, h]

/-- When no split happens, `arc_has_split` leaves the stack unchanged. -/
lemma arc_has_split_stack_of_eq {T : Type} [DecidableEq T] (F : FovValue T) (a : Arc T)
    (stack : List (Arc T)) (h : F.advance a.prev_value a.pt.to_v2 = a.group_value) :
    Arc.arc_has_split F a stack = (stack, false) := by
  simp [Arc.arc_has_split, h]

/-- When a split happens, the pushed arcs are the continuation arc and, for a
`Some` group value, additionally the outward extension arc. -/
lemma arc_has_split_stack_of_ne {T : Type} [DecidableEq T] (F : FovValue T) (a : Arc T)
    (stack : List (Arc T)) (h : F.advance a.prev_value a.pt.to_v2 ≠ a.group_value) :
    Arc.arc_has_split F a stack =
      ((match a.group_value with
        | some group_value =>
            [Arc.new F a.begin.further a.pt.further group_value,
             { begin := a.pt, pt := a.pt, end_ := a.end_, prev_value := a.prev_value,
               group_value := F.advance a.prev_value a.pt.to_v2 }]
        | none =>
            [{ begin := a.pt, pt := a.pt, end_ := a.end_, prev_value := a.prev_value,
               group_value := F.advance a.prev_value a.pt.to_v2 }]) ++ stack, true) := by
  cases hg : a.group_value <;> rw [hg] at h <;> simp [Arc.arc_has_split, h, hg]

/-- Unfolding `step` on a non-empty side channel. -/
lemma step_side {T : Type} [DecidableEq T] (F : FovValue T) (st : List (Arc T))
    (e : Offset × T) (side : List (Offset × T)) :
    HexFov.step F ⟨st, e :: side⟩ = .emit e ⟨st, side⟩ := rfl

/-- Unfolding `step` on the exhausted state. -/
lemma step_done_eq {T : Type} [DecidableEq T] (F : FovValue T) :
    HexFov.step F ⟨([] : List (Arc T)), []⟩ = .done := rfl

/-- Unfolding `step` when the popped arc splits: silent continuation on the
stack that `arc_has_split` produced. -/
lemma step_split {T : Type} [DecidableEq T] (F : FovValue T) (a : Arc T)
    (rest : List (Arc T)) (h : (Arc.arc_has_split F a rest).2 = true) :
    HexFov.step F ⟨a :: rest, []⟩ = .cont ⟨(Arc.arc_has_split F a rest).1, []⟩ := by
  rcases hsp : Arc.arc_has_split F a rest with ⟨st2, b⟩
  rw [hsp] at h
  cases b
  · cases h
  · simp [HexFov.step, hsp]

/-- Unfolding `step` when the popped arc does not split: run the corner check,
advance the arc, and emit exactly when the group value is `Some`. -/
lemma step_nosplit {T : Type} [DecidableEq T] (F : FovValue T) (a : Arc T)
    (rest : List (Arc T)) (h : F.advance a.prev_value a.pt.to_v2 = a.group_value) :
    HexFov.step F ⟨a :: rest, []⟩ =
      match a.group_value with
      | some v => .emit (a.pt.to_v2, v)
          ⟨Arc.advance F a rest, HexFov.make_corners_visible F a []⟩
      | none => .cont ⟨Arc.advance F a rest, HexFov.make_corners_visible F a []⟩ := by
  have hsp := arc_has_split_stack_of_eq F a rest h
  cases hg : a.group_value <;> simp [HexFov.step, hsp, hg]

/-- Unfolding `runF` along an emitting step. -/
lemma runF_emit {T : Type} [DecidableEq T] (F : FovValue T) {s : HexFov T}
    {e : Offset × T} {s' : HexFov T} (h : HexFov.step F s = .emit e s') (n : ℕ) :
    HexFov.runF F (n + 1) s =
      (e :: (HexFov.runF F n s').1, (HexFov.runF F n s').2) := by
  simp [HexFov.runF, h]

/-- Unfolding `runF` along a silent step. -/
lemma runF_cont {T : Type} [DecidableEq T] (F : FovValue T) {s s' : HexFov T}
    (h : HexFov.step F s = .cont s') (n : ℕ) :
    HexFov.runF F (n + 1) s = HexFov.runF F n s' := by
  simp [HexFov.runF, h]

/-- Unfolding `runF` on an exhausted step. -/
lemma runF_done {T : Type} [DecidableEq T] (F : FovValue T) {s : HexFov T}
    (h : HexFov.step F s = .done) (n : ℕ) :
    HexFov.runF F (n + 1) s = ([], true) := by
  simp [HexFov.runF, h]

/-- C1: seeded with a value whose `advance` keeps propagating exactly below hex
distance 2, the full (exhausting) run emits offset (1,0) and never (1,-1);
the otherwise identical value whose `is_fake_isometric_wall` is constantly
true additionally emits (1,-1). -/
theorem claim_C1_trivial_fov :
    (HexFov.runF cell1 64 (HexFov.new cell1 2)).2 = true ∧
    ((1, 0) : Offset) ∈ (HexFov.runF cell1 64 (HexFov.new cell1 2)).1.map Prod.fst ∧
    ((1, -1) : Offset) ∉ (HexFov.runF cell1 64 (HexFov.new cell1 2)).1.map Prod.fst ∧
    (HexFov.runF cell2 64 (HexFov.new cell2 2)).2 = true ∧
    ((1, 0) : Offset) ∈ (HexFov.runF cell2 64 (HexFov.new cell2 2)).1.map Prod.fst ∧
    ((1, -1) : Offset) ∈ (HexFov.runF cell2 64 (HexFov.new cell2 2)).1.map Prod.fst := by
  decide

/-- C2: for every initial value, the first pull on a fresh iterator emits the
origin offset with the unchanged initial value, taken from the side channel
while the ring-scan stack is left untouched. -/
theorem claim_C2_origin_first :
    ∀ (T : Type) [inst : DecidableEq T] (F : FovValue T) (init : T),
      HexFov.step F (HexFov.new F init) =
        .emit ((0, 0), init) ⟨(HexFov.new F init).stack, []⟩ ∧
      ∀ n : ℕ, (HexFov.runF F (n + 1) (HexFov.new F init)).1.head? = some ((0, 0), init) := by
  intro T _ F init
  refine ⟨rfl, fun n => ?_⟩
  rw [runF_emit F (rfl :
    HexFov.step F (HexFov.new F init) = .emit ((0, 0), init) ⟨(HexFov.new F init).stack, []⟩)]
  rfl

/-- C3: a popped arc whose group value is `None` yields no emission for its
current cell (the step is a silent continuation), and every emission produced
by popping an arc carries a value its group value held as `Some`. -/
theorem claim_C3_no_opaque_emission :
    ∀ (T : Type) [inst : DecidableEq T] (F : FovValue T) (a : Arc T) (rest : List (Arc T)),
      ((Arc.arc_has_split F a rest).2 = false → a.group_value = none →
         HexFov.step F ⟨a :: rest, []⟩ =
           .cont ⟨Arc.advance F a rest, HexFov.make_corners_visible F a []⟩) ∧
      (∀ (e : Offset × T) (s' : HexFov T),
         HexFov.step F ⟨a :: rest, []⟩ = .emit e s' →
         a.group_value = some e.2 ∧ e.1 = a.pt.to_v2) := by
  intro T _ F a rest
  constructor
  · intro h hg
    have heq : F.advance a.prev_value a.pt.to_v2 = a.group_value := by
      by_contra hne
      rw [(arc_has_split_snd F a rest).mpr hne] at h
      cases h
    rw [step_nosplit F a rest heq, hg]
  · intro e s' hstep
    by_cases hsp : F.advance a.prev_value a.pt.to_v2 = a.group_value
    · rw [step_nosplit F a rest hsp] at hstep
      cases hg : a.group_value with
      | none => rw [hg] at hstep; cases hstep
      | some v =>
        rw [hg] at hstep
        cases hstep
        simp [hg]
    · rw [step_split F a rest ((arc_has_split_snd F a rest).mpr hsp)] at hstep
      cases hstep

/-- C3 witness: a concrete opaque ring-2 arc of the `cell1` scenario steps to a
silent continuation. -/
theorem claim_C3_witness :
    (Arc.arc_has_split cell1 opaqueArc []).2 = false ∧
    opaqueArc.group_value = none ∧
    HexFov.step cell1 ⟨[opaqueArc], []⟩ =
      .cont ⟨Arc.advance cell1 opaqueArc [], HexFov.make_corners_visible cell1 opaqueArc []⟩ :=
  ⟨by decide, by decide,
    (claim_C3_no_opaque_emission ℤ cell1 opaqueArc []).1 (by decide) (by decide)⟩

/-- C4: `arc_has_split` reports a split exactly when the recomputed value
differs from the group value; a split pushes the continuation arc plus, when
the old group value was `Some`, the outward extension arc; without a split the
stack is unchanged; and a split step never emits. -/
theorem claim_C4_arc_split :
    ∀ (T : Type) [inst : DecidableEq T] (F : FovValue T) (a : Arc T) (stack : List (Arc T)),
      ((Arc.arc_has_split F a stack).2 = true ↔
         F.advance a.prev_value a.pt.to_v2 ≠ a.group_value) ∧
      (F.advance a.prev_value a.pt.to_v2 ≠ a.group_value →
         (Arc.arc_has_split F a stack).1 =
           (match a.group_value with
            | some gv =>
                [Arc.new F a.begin.further a.pt.further gv,
                 { begin := a.pt, pt := a.pt, end_ := a.end_, prev_value := a.prev_value,
                   group_value := F.advance a.prev_value a.pt.to_v2 }]
            | none =>
                [{ begin := a.pt, pt := a.pt, end_ := a.end_, prev_value := a.prev_value,
                   group_value := F.advance a.prev_value a.pt.to_v2 }]) ++ stack) ∧
      (F.advance a.prev_value a.pt.to_v2 = a.group_value →
         Arc.arc_has_split F a stack = (stack, false)) ∧
      (∀ rest : List (Arc T), (Arc.arc_has_split F a rest).2 = true →
         HexFov.step F ⟨a :: rest, []⟩ = .cont ⟨(Arc.arc_has_split F a rest).1, []⟩) := by
  intro T _ F a stack
  refine ⟨arc_has_split_snd F a stack, fun h => ?_,
    arc_has_split_stack_of_eq F a stack, fun rest h => step_split F a rest h⟩
  rw [arc_has_split_stack_of_ne F a stack h]

/-- C4 witness: a concrete arc whose recomputed value differs from its group
value splits, pushing the extension and continuation arcs, and its step emits
nothing. -/
theorem claim_C4_witness :
    (Arc.arc_has_split cell1 splitArc []).2 = true ∧
    (Arc.arc_has_split cell1 splitArc []).1 =
      [Arc.new cell1 splitArc.begin.further splitArc.pt.further 1,
       { begin := splitArc.pt, pt := splitArc.pt, end_ := splitArc.end_,
         prev_value := splitArc.prev_value,
         group_value := cell1.advance splitArc.prev_value splitArc.pt.to_v2 }] ++ [] ∧
    HexFov.step cell1 ⟨[splitArc], []⟩ =
      .cont ⟨(Arc.arc_has_split cell1 splitArc []).1, []⟩ := by
  have h : cell1.advance splitArc.prev_value splitArc.pt.to_v2 ≠ splitArc.group_value := by
    decide
  exact ⟨(claim_C4_arc_split ℤ cell1 splitArc []).1.mpr h,
    (claim_C4_arc_split ℤ cell1 splitArc []).2.1 h,
    (claim_C4_arc_split ℤ cell1 splitArc []).2.2.2 []
      ((claim_C4_arc_split ℤ cell1 splitArc []).1.mpr h)⟩

/-- C5: `Arc.advance` moves `pt` one step; while still below the end the same
arc (only `pt` changed) is pushed back, otherwise exactly one graduated arc is
pushed when the group value is `Some` and nothing when it is `None`. -/
theorem claim_C5_arc_advance :
    ∀ (T : Type) (F : FovValue T) (a : Arc T) (stack : List (Arc T)),
      (a.pt.next.is_below a.end_ = true →
         Arc.advance F a stack = { a with pt := a.pt.next } :: stack) ∧
      (a.pt.next.is_below a.end_ = false →
         (∀ v, a.group_value = some v →
            Arc.advance F a stack = Arc.new F a.begin.further a.end_.further v :: stack) ∧
         (a.group_value = none → Arc.advance F a stack = stack)) := by
  intro T F a stack
  constructor
  · intro h
    simp [Arc.advance, h]
  · intro h
    exact ⟨fun v hv => by simp [Arc.advance, h, hv], fun hv => by simp [Arc.advance, h, hv]⟩

/-- C5 witness: the seed arc of the `cell1` scenario is still below its end
after one step and is pushed back with only `pt` changed. -/
theorem claim_C5_witness :
    seedArc.pt.next.is_below seedArc.end_ = true ∧
    Arc.advance cell1 seedArc [] = [{ seedArc with pt := seedArc.pt.next }] :=
  ⟨by decide, (claim_C5_arc_advance ℤ cell1 seedArc []).1 (by decide)⟩

/-- Constructing an arc only consults `advance`. -/
lemma arc_new_congr {T : Type} (F₀ F₁ : FovValue T) (h : F₀.advance = F₁.advance)
    (b e : PolarPoint) (v : T) : Arc.new F₀ b e v = Arc.new F₁ b e v := by
  simp [Arc.new, h]

/-- Splitting an arc only consults `advance`. -/
lemma arc_has_split_congr {T : Type} [DecidableEq T] (F₀ F₁ : FovValue T)
    (h : F₀.advance = F₁.advance) (a : Arc T) (stack : List (Arc T)) :
    Arc.arc_has_split F₀ a stack = Arc.arc_has_split F₁ a stack := by
  simp only [Arc.arc_has_split, Arc.new, h]

/-- Advancing an arc only consults `advance`. -/
lemma arc_advance_congr {T : Type} (F₀ F₁ : FovValue T) (h : F₀.advance = F₁.advance)
    (a : Arc T) (stack : List (Arc T)) :
    Arc.advance F₀ a stack = Arc.advance F₁ a stack := by
  simp only [Arc.advance, Arc.new, h]

/-- The corner check only pushes onto the side channel it is given. -/
lemma mcv_append {T : Type} [DecidableEq T] (F : FovValue T) (a : Arc T)
    (side : List (Offset × T)) :
    HexFov.make_corners_visible F a side = HexFov.make_corners_visible F a [] ++ side := by
  unfold HexFov.make_corners_visible
  split
  · dsimp only
    split
    · split
      · split <;> simp
      · simp
    · simp
  · simp

/-- With the default (constantly false) wall capability the corner check never
pushes anything. -/
lemma mcv_false {T : Type} [DecidableEq T] (F : FovValue T)
    (hw : F.is_fake_isometric_wall = fun _ _ => false) (a : Arc T)
    (side : List (Offset × T)) :
    HexFov.make_corners_visible F a side = side := by
  unfold HexFov.make_corners_visible
  cases hsp : a.pt.side_point with
  | none => rfl
  | some sp => simp [hw]

/-- Two capability values sharing `advance` take the same step up to the side
channel: same constructor, same emission, same resulting arc stack. -/
lemma step_agree {T : Type} [DecidableEq T] (F₀ F₁ : FovValue T)
    (h : F₀.advance = F₁.advance) (s : HexFov T) :
    StepAgree (HexFov.step F₀ s) (HexFov.step F₁ s) := by
  obtain ⟨st, side⟩ := s
  cases side with
  | cons e rest =>
    rw [step_side, step_side]
    exact ⟨rfl, rfl⟩
  | nil =>
    cases st with
    | nil =>
      rw [step_done_eq, step_done_eq]
      trivial
    | cons a rest =>
      by_cases hsp : F₀.advance a.prev_value a.pt.to_v2 = a.group_value
      · have hsp' : F₁.advance a.prev_value a.pt.to_v2 = a.group_value := by
          rw [← h]; exact hsp
        rw [step_nosplit F₀ a rest hsp, step_nosplit F₁ a rest hsp']
        cases hg : a.group_value <;>
          simp [hg, StepAgree, arc_advance_congr F₀ F₁ h]
      · have hsp' : F₁.advance a.prev_value a.pt.to_v2 ≠ a.group_value := by
          rw [← h]; exact hsp
        rw [step_split F₀ a rest ((arc_has_split_snd F₀ a rest).mpr hsp),
          step_split F₁ a rest ((arc_has_split_snd F₁ a rest).mpr hsp')]
        simp [StepAgree, arc_has_split_congr F₀ F₁ h]

/-- Draining a side-channel segment: the first `pre.length` pulls emit exactly
`pre` and leave the stack untouched. -/
lemma run_drain {T : Type} [DecidableEq T] (F : FovValue T) (st : List (Arc T))
    (pre side : List (Offset × T)) (m : ℕ) :
    HexFov.runF F (pre.length + m) ⟨st, pre ++ side⟩ =
      (pre ++ (HexFov.runF F m ⟨st, side⟩).1, (HexFov.runF F m ⟨st, side⟩).2) := by
  induction pre with
  | nil => simp
  | cons e pre ih =>
    have hlen : (e :: pre).length + m = (pre.length + m) + 1 := by
      simp [Nat.add_right_comm]
    rw [List.cons_append, hlen,
      runF_emit F (step_side F st e (pre ++ side)) (pre.length + m), ih]
    simp

/-- C10: the corner-visibility check only pushes entries onto the side channel
it is handed, and the wall capability never influences the stack: two
capability values sharing `advance` produce steps that agree on constructor,
emitted pair and resulting arc stack. -/
theorem claim_C10_corner_frame :
    (∀ (T : Type) [inst : DecidableEq T] (F : FovValue T) (a : Arc T)
        (side : List (Offset × T)),
       HexFov.make_corners_visible F a side = HexFov.make_corners_visible F a [] ++ side) ∧
    (∀ (T : Type) [inst : DecidableEq T] (F₀ F₁ : FovValue T), F₀.advance = F₁.advance →
       ∀ s : HexFov T, StepAgree (HexFov.step F₀ s) (HexFov.step F₁ s)) :=
  ⟨fun _ _ F a side => mcv_append F a side, fun _ _ F₀ F₁ h s => step_agree F₀ F₁ h s⟩

/-- C10 witness: the wall-enabled and wall-disabled variants of the range-2
value take agreeing steps from the fresh iterator state. -/
theorem claim_C10_witness :
    StepAgree (HexFov.step cell1 (HexFov.new cell1 2)) (HexFov.step cell2 (HexFov.new cell1 2)) :=
  claim_C10_corner_frame.2 ℤ cell1 cell2 rfl (HexFov.new cell1 2)

/-- Simulation underlying the monotonicity claim: with the same arc stack and
a side channel extended by a LIFO segment `pre`, every pair the plain run
(default wall capability) emits within some fuel is also emitted by the
wall-enabled run within some fuel. -/
lemma run_subset {T : Type} [DecidableEq T] (F₀ F₁ : FovValue T)
    (hadv : F₀.advance = F₁.advance)
    (hw : F₀.is_fake_isometric_wall = fun _ _ => false) :
    ∀ (n : ℕ) (st : List (Arc T)) (side pre : List (Offset × T)),
      ∀ e ∈ (HexFov.runF F₀ n ⟨st, side⟩).1,
        ∃ m, e ∈ (HexFov.runF F₁ m ⟨st, pre ++ side⟩).1 := by
  intro n
  induction n with
  | zero =>
    intro st side pre e he
    simp [HexFov.runF] at he
  | succ n ih =>
    intro st side pre e he
    cases side with
    | cons e₀ rest =>
      rw [runF_emit F₀ (step_side F₀ st e₀ rest) n] at he
      rcases List.mem_cons.mp he with rfl | hmem
      · refine ⟨(pre ++ [e]).length + 0, ?_⟩
        rw [show pre ++ e :: rest = (pre ++ [e]) ++ rest by simp, run_drain]
        simp
      · obtain ⟨m, hm⟩ := ih st rest [] e hmem
        rw [List.nil_append] at hm
        refine ⟨(pre ++ [e₀]).length + m, ?_⟩
        rw [show pre ++ e₀ :: rest = (pre ++ [e₀]) ++ rest by simp, run_drain]
        exact List.mem_append_right _ hm
    | nil =>
      cases st with
      | nil =>
        rw [runF_done F₀ (step_done_eq F₀) n] at he
        simp at he
      | cons a rest =>
        by_cases hsp : F₀.advance a.prev_value a.pt.to_v2 = a.group_value
        · have hsp' : F₁.advance a.prev_value a.pt.to_v2 = a.group_value := by
            rw [← hadv]; exact hsp
          have hadv_eq : Arc.advance F₀ a rest = Arc.advance F₁ a rest :=
            arc_advance_congr F₀ F₁ hadv a rest
          cases hg : a.group_value with
          | some v =>
            have hstep₀ : HexFov.step F₀ ⟨a :: rest, []⟩ =
                .emit (a.pt.to_v2, v)
                  ⟨Arc.advance F₀ a rest, HexFov.make_corners_visible F₀ a []⟩ := by
              rw [step_nosplit F₀ a rest hsp, hg]
            have hstep₁ : HexFov.step F₁ ⟨a :: rest, []⟩ =
                .emit (a.pt.to_v2, v)
                  ⟨Arc.advance F₀ a rest, HexFov.make_corners_visible F₁ a []⟩ := by
              rw [step_nosplit F₁ a rest hsp', hg, ← hadv_eq]
            rw [runF_emit F₀ hstep₀ n, mcv_false F₀ hw] at he
            rcases List.mem_cons.mp he with rfl | hmem
            · refine ⟨pre.length + (0 + 1), ?_⟩
              rw [run_drain F₁ (a :: rest) pre [] (0 + 1),
                runF_emit F₁ hstep₁ 0]
              simp
            · obtain ⟨m, hm⟩ :=
                ih (Arc.advance F₀ a rest) [] (HexFov.make_corners_visible F₁ a []) e hmem
              rw [List.append_nil] at hm
              refine ⟨pre.length + (m + 1), ?_⟩
              rw [run_drain F₁ (a :: rest) pre [] (m + 1), runF_emit F₁ hstep₁ m]
              exact List.mem_append_right _ (List.mem_cons_of_mem _ hm)
          | none =>
            have hstep₀ : HexFov.step F₀ ⟨a :: rest, []⟩ =
                .cont ⟨Arc.advance F₀ a rest, HexFov.make_corners_visible F₀ a []⟩ := by
              rw [step_nosplit F₀ a rest hsp, hg]
            have hstep₁ : HexFov.step F₁ ⟨a :: rest, []⟩ =
                .cont ⟨Arc.advance F₀ a rest, HexFov.make_corners_visible F₁ a []⟩ := by
              rw [step_nosplit F₁ a rest hsp', hg, ← hadv_eq]
            rw [runF_cont F₀ (by rw [hstep₀, mcv_false F₀ hw]) n] at he
            obtain ⟨m, hm⟩ :=
              ih (Arc.advance F₀ a rest) [] (HexFov.make_corners_visible F₁ a []) e he
            rw [List.append_nil] at hm
            refine ⟨pre.length + (m + 1), ?_⟩
            rw [run_drain F₁ (a :: rest) pre [] (m + 1), runF_cont F₁ hstep₁ m]
            exact List.mem_append_right _ hm
        · have hsp' : F₁.advance a.prev_value a.pt.to_v2 ≠ a.group_value := by
            rw [← hadv]; exact hsp
          have hcongr := arc_has_split_congr F₀ F₁ hadv a rest
          have hstep₀ := step_split F₀ a rest ((arc_has_split_snd F₀ a rest).mpr hsp)
          have hstep₁ : HexFov.step F₁ ⟨a :: rest, []⟩ =
              .cont ⟨(Arc.arc_has_split F₀ a rest).1, []⟩ := by
            rw [step_split F₁ a rest ((arc_has_split_snd F₁ a rest).mpr hsp'), hcongr]
          rw [runF_cont F₀ hstep₀ n] at he
          obtain ⟨m, hm⟩ := ih (Arc.arc_has_split F₀ a rest).1 [] [] e he
          rw [List.nil_append] at hm
          refine ⟨pre.length + (m + 1), ?_⟩
          rw [run_drain F₁ (a :: rest) pre [] (m + 1), runF_cont F₁ hstep₁ m]
          exact List.mem_append_right _ hm

/-- C6: enabling the wall capability on an otherwise identical value never
removes an emitted offset: every offset the plain run emits within some fuel
is emitted by the wall-enabled run within some fuel. -/
theorem claim_C6_wall_monotone :
    ∀ (T : Type) [inst : DecidableEq T] (F₀ F₁ : FovValue T),
      F₀.advance = F₁.advance →
      F₀.is_fake_isometric_wall = (fun _ _ => false) →
      ∀ (init : T) (n : ℕ) (off : Offset),
        off ∈ (HexFov.runF F₀ n (HexFov.new F₀ init)).1.map Prod.fst →
        ∃ m, off ∈ (HexFov.runF F₁ m (HexFov.new F₁ init)).1.map Prod.fst := by
  intro T _ F₀ F₁ hadv hw init n off hoff
  rw [List.mem_map] at hoff
  obtain ⟨e, he, rfl⟩ := hoff
  obtain ⟨m, hm⟩ :=
    run_subset F₀ F₁ hadv hw n (HexFov.new F₀ init).stack (HexFov.new F₀ init).side_channel
      [] e he
  refine ⟨m, List.mem_map.mpr ⟨e, ?_, rfl⟩⟩
  have hstack : (HexFov.new F₀ init).stack = (HexFov.new F₁ init).stack := by
    simp [HexFov.new, arc_new_congr F₀ F₁ hadv]
  rw [List.nil_append,
    show (HexFov.new F₀ init).side_channel = (HexFov.new F₁ init).side_channel from rfl,
    hstack] at hm
  exact hm

/-- C6 witness: the offset (1,0) emitted by the plain range-2 run is also
emitted by the wall-enabled run. -/
theorem claim_C6_witness :
    ∃ m, ((1, 0) : Offset) ∈ (HexFov.runF cell2 m (HexFov.new cell2 2)).1.map Prod.fst :=
  claim_C6_wall_monotone ℤ cell1 cell2 rfl rfl 2 64 (1, 0) (by decide)

/-- Projecting a point outward adds one to its radius. -/
lemma further_radius (p : PolarPoint) : p.further.radius = p.radius + 1 := rfl

/-- `Arc.advance` pushes only radius-respecting arcs. -/
lemma advance_wf {T : Type} (F : FovValue T) (a : Arc T) (rest : List (Arc T))
    (ha : ArcWf a) (hrest : ∀ b ∈ rest, ArcWf b) :
    ∀ b ∈ Arc.advance F a rest, ArcWf b := by
  intro b hb
  obtain ⟨h1, h2, h3⟩ := ha
  by_cases hbelow : a.pt.next.is_below a.end_ = true
  · simp only [Arc.advance, hbelow, if_true] at hb
    rcases List.mem_cons.mp hb with rfl | hb
    · exact ⟨by rw [radius_next]; exact h1, by rw [radius_next]; exact h2, h3⟩
    · exact hrest b hb
  · rw [Bool.not_eq_true] at hbelow
    cases hg : a.group_value with
    | some v =>
      simp only [Arc.advance, hbelow, Bool.false_eq_true, if_false, hg] at hb
      rcases List.mem_cons.mp hb with rfl | hb
      · refine ⟨rfl, ?_, ?_⟩
        · show a.begin.further.radius = a.end_.further.radius
          rw [further_radius, further_radius, h1, h2]
        · show 1 ≤ a.begin.further.radius
          rw [further_radius]
          omega
      · exact hrest b hb
    | none =>
      simp only [Arc.advance, hbelow, Bool.false_eq_true, if_false, hg] at hb
      exact hrest b hb

/-- `arc_has_split` pushes only radius-respecting arcs. -/
lemma split_stack_wf {T : Type} [DecidableEq T] (F : FovValue T) (a : Arc T)
    (rest : List (Arc T)) (ha : ArcWf a) (hrest : ∀ b ∈ rest, ArcWf b) :
    ∀ b ∈ (Arc.arc_has_split F a rest).1, ArcWf b := by
  intro b hb
  obtain ⟨h1, h2, h3⟩ := ha
  by_cases hsp : F.advance a.prev_value a.pt.to_v2 = a.group_value
  · rw [arc_has_split_stack_of_eq F a rest hsp] at hb
    exact hrest b hb
  · rw [arc_has_split_stack_of_ne F a rest hsp] at hb
    have hcont : ArcWf (⟨a.pt, a.pt, a.end_, a.prev_value,
        F.advance a.prev_value a.pt.to_v2⟩ : Arc T) :=
      ⟨rfl, h2, by rw [← h1]; exact h3⟩
    have hext : ∀ v : T, ArcWf (Arc.new F a.begin.further a.pt.further v) := by
      intro v
      refine ⟨rfl, ?_, ?_⟩
      · show a.begin.further.radius = a.pt.further.radius
        rw [further_radius, further_radius, h1]
      · show 1 ≤ a.begin.further.radius
        rw [further_radius]
        omega
    cases hg : a.group_value with
    | some v =>
      rw [hg] at hb
      simp only [List.mem_append, List.mem_cons, List.not_mem_nil, or_false] at hb
      rcases hb with (rfl | rfl) | hb
      · exact hext v
      · exact hcont
      · exact hrest b hb
    | none =>
      rw [hg] at hb
      simp only [List.mem_append, List.mem_cons, List.not_mem_nil, or_false] at hb
      rcases hb with rfl | hb
      · exact hcont
      · exact hrest b hb

/-- One step preserves the radius invariant of every stacked arc. -/
lemma step_preserves_wf {T : Type} [DecidableEq T] (F : FovValue T) (s : HexFov T)
    (hwf : ∀ a ∈ s.stack, ArcWf a) :
    (∀ (e : Offset × T) (s' : HexFov T),
       HexFov.step F s = .emit e s' → ∀ a ∈ s'.stack, ArcWf a) ∧
    (∀ s' : HexFov T, HexFov.step F s = .cont s' → ∀ a ∈ s'.stack, ArcWf a) := by
  obtain ⟨st, side⟩ := s
  cases side with
  | cons e₀ rest =>
    refine ⟨fun e s' h => ?_, fun s' h => ?_⟩ <;> rw [step_side] at h
    · cases h
      exact hwf
    · cases h
  | nil =>
    cases st with
    | nil =>
      refine ⟨fun e s' h => ?_, fun s' h => ?_⟩ <;> rw [step_done_eq] at h <;> cases h
    | cons a rest =>
      have ha : ArcWf a := hwf a (by simp)
      have hrest : ∀ b ∈ rest, ArcWf b := fun b hb => hwf b (by simp [hb])
      by_cases hsp : F.advance a.prev_value a.pt.to_v2 = a.group_value
      · have hstep := step_nosplit F a rest hsp
        cases hg : a.group_value with
        | some v =>
          rw [hg] at hstep
          refine ⟨fun e s' h => ?_, fun s' h => ?_⟩ <;> rw [hstep] at h
          · cases h
            exact advance_wf F a rest ha hrest
          · cases h
        | none =>
          rw [hg] at hstep
          refine ⟨fun e s' h => ?_, fun s' h => ?_⟩ <;> rw [hstep] at h
          · cases h
          · cases h
            exact advance_wf F a rest ha hrest
      · have hstep := step_split F a rest ((arc_has_split_snd F a rest).mpr hsp)
        refine ⟨fun e s' h => ?_, fun s' h => ?_⟩ <;> rw [hstep] at h
        · cases h
        · cases h
          exact split_stack_wf F a rest ha hrest

/-- C7: the seed arc and every arc on the stack of any reachable iterator
state keeps its three polar points on one common ring of radius at least 1 —
so `further`, which divides by the radius, is never applied at radius 0. -/
theorem claim_C7_radius_invariant :
    ∀ (T : Type) [inst : DecidableEq T] (F : FovValue T) (init : T),
      (∀ a ∈ (HexFov.new F init).stack, ArcWf a) ∧
      (∀ s : HexFov T, Reaches F (HexFov.new F init) s → ∀ a ∈ s.stack, ArcWf a) := by
  intro T _ F init
  have hinit : ∀ a ∈ (HexFov.new F init).stack, ArcWf a := by
    intro a ha
    simp only [HexFov.new, List.mem_singleton] at ha
    subst ha
    exact ⟨rfl, rfl, le_refl 1⟩
  refine ⟨hinit, fun s hreach => ?_⟩
  induction hreach with
  | refl => exact hinit
  | emit hr hstep ih => exact (step_preserves_wf F _ ih).1 _ _ hstep
  | cont hr hstep ih => exact (step_preserves_wf F _ ih).2 _ hstep

/-- C7 witness: the fresh iterator of the range-2 scenario satisfies the
radius invariant on its whole stack. -/
theorem claim_C7_witness :
    ∀ a ∈ (HexFov.new cell1 2).stack, ArcWf a :=
  (claim_C7_radius_invariant ℤ cell1 2).2 (HexFov.new cell1 2) (Reaches.refl _)

/-- C9: stepping a polar point keeps the radius, snaps the position to
`floor(pos + 0.5) + 0.5`, increases the winding index by exactly one, and so
after k steps the winding index has grown by exactly k. -/
theorem claim_C9_polar_next :
    ∀ p : PolarPoint,
      p.next.radius = p.radius ∧
      p.next.pos = (Frac.ofInt (p.pos.add Frac.half).floor).add Frac.half ∧
      p.next.winding_index = p.winding_index + 1 ∧
      ∀ k : ℕ, (PolarPoint.next^[k] p).winding_index = p.winding_index + k := by
  intro p
  refine ⟨rfl, rfl, winding_index_next p, fun k => ?_⟩
  induction k with
  | zero => simp
  | succ k ih =>
    rw [Function.iterate_succ_apply', winding_index_next, ih]
    push_cast
    ring

/-- An arc with a `Some` group value always pushes at least one arc when
advanced. -/
lemma advance_ne_nil {T : Type} (F : FovValue T) (a : Arc T) (rest : List (Arc T)) (v : T)
    (hg : a.group_value = some v) : Arc.advance F a rest ≠ [] := by
  cases hb : a.pt.next.is_below a.end_ <;> simp [Arc.advance, hb, hg]

/-- A splitting arc always pushes at least one arc. -/
lemma split_ne_nil {T : Type} [DecidableEq T] (F : FovValue T) (a : Arc T)
    (rest : List (Arc T)) (h : ¬F.advance a.prev_value a.pt.to_v2 = a.group_value) :
    (Arc.arc_has_split F a rest).1 ≠ [] := by
  rw [arc_has_split_stack_of_ne F a rest h]
  cases a.group_value <;> simp

/-- When `advance` never reports opacity, the stack never empties and the run
never reports exhaustion, whatever the fuel. -/
lemma runF_never_halts {T : Type} [DecidableEq T] (F : FovValue T)
    (h : ∀ (v : T) (off : Offset), F.advance v off ≠ none) :
    ∀ (n : ℕ) (s : HexFov T), s.stack ≠ [] → (HexFov.runF F n s).2 = false := by
  intro n
  induction n with
  | zero => intro s _; rfl
  | succ n ih =>
    intro s hne
    obtain ⟨st, side⟩ := s
    cases side with
    | cons e rest =>
      rw [runF_emit F (step_side F st e rest) n]
      exact ih ⟨st, rest⟩ hne
    | nil =>
      cases st with
      | nil => exact absurd rfl hne
      | cons a rest =>
        by_cases hsp : F.advance a.prev_value a.pt.to_v2 = a.group_value
        · obtain ⟨v, hv⟩ := Option.ne_none_iff_exists'.mp (h a.prev_value a.pt.to_v2)
          have hg : a.group_value = some v := by rw [← hsp]; exact hv
          have hstep := step_nosplit F a rest hsp
          rw [hg] at hstep
          rw [runF_emit F hstep n]
          exact ih _ (advance_ne_nil F a rest v hg)
        · have hstep := step_split F a rest ((arc_has_split_snd F a rest).mpr hsp)
          rw [runF_cont F hstep n]
          exact ih _ (split_ne_nil F a rest hsp)

/-- Two integers have equal signs exactly when they are both positive, both
negative, or both zero. -/
lemma sign_eq_iff (x y : ℤ) :
    Int.sign x = Int.sign y ↔ (0 < x ∧ 0 < y) ∨ (x < 0 ∧ y < 0) ∨ (x = 0 ∧ y = 0) := by
  rcases lt_trichotomy x 0 with hx | hx | hx <;> rcases lt_trichotomy y 0 with hy | hy | hy
  · rw [Int.sign_eq_neg_one_iff_neg.mpr hx, Int.sign_eq_neg_one_iff_neg.mpr hy]
    constructor <;> intro h <;> omega
  · subst hy
    rw [Int.sign_eq_neg_one_iff_neg.mpr hx, Int.sign_zero]
    constructor <;> intro h <;> omega
  · rw [Int.sign_eq_neg_one_iff_neg.mpr hx, Int.sign_eq_one_iff_pos.mpr hy]
    constructor <;> intro h <;> omega
  · subst hx
    rw [Int.sign_zero, Int.sign_eq_neg_one_iff_neg.mpr hy]
    constructor <;> intro h <;> omega
  · subst hx; subst hy
    simp
  · subst hx
    rw [Int.sign_zero, Int.sign_eq_one_iff_pos.mpr hy]
    constructor <;> intro h <;> omega
  · rw [Int.sign_eq_one_iff_pos.mpr hx, Int.sign_eq_neg_one_iff_neg.mpr hy]
    constructor <;> intro h <;> omega
  · subst hy
    rw [Int.sign_eq_one_iff_pos.mpr hx, Int.sign_zero]
    constructor <;> intro h <;> omega
  · rw [Int.sign_eq_one_iff_pos.mpr hx, Int.sign_eq_one_iff_pos.mpr hy]
    constructor <;> intro h <;> omega

/-- Evaluation of `hexDist` through the sign trichotomy. -/
lemma hexDist_eq (x y : ℤ) :
    hexDist (x, y) =
      if (0 < x ∧ 0 < y) ∨ (x < 0 ∧ y < 0) ∨ (x = 0 ∧ y = 0) then max |x| |y|
      else |x| + |y| := by
  unfold hexDist
  by_cases h : (0 < x ∧ 0 < y) ∨ (x < 0 ∧ y < 0) ∨ (x = 0 ∧ y = 0)
  · rw [if_pos ((sign_eq_iff x y).mpr h), if_pos h]
  · rw [if_neg (fun hs => h ((sign_eq_iff x y).mp hs)), if_neg h]

/-- Any cell of the ring of radius `r` produced by the sector decomposition is
at hex distance exactly `r`. -/
lemma hexDist_ring (r s o : ℤ) (hr : 1 ≤ r) (hs0 : 0 ≤ s) (hs5 : s < 6)
    (ho0 : 0 ≤ o) (hor : o < r) :
    hexDist ((dir6 s).1 * r + (dir6 (s + 2)).1 * o,
      (dir6 s).2 * r + (dir6 (s + 2)).2 * o) = r := by
  have hcase : s = 0 ∨ s = 1 ∨ s = 2 ∨ s = 3 ∨ s = 4 ∨ s = 5 := by omega
  rcases hcase with rfl | rfl | rfl | rfl | rfl | rfl
  · show hexDist ((-1) * r + 1 * o, (-1) * r + 0 * o) = r
    rw [hexDist_eq, if_pos (by omega), abs_of_neg (by omega : (-1) * r + 1 * o < 0),
      abs_of_neg (by omega : (-1) * r + 0 * o < 0), max_eq_right (by omega)]
    omega
  · show hexDist (0 * r + 1 * o, (-1) * r + 1 * o) = r
    rw [hexDist_eq, if_neg (by omega), abs_of_nonneg (by omega : (0:ℤ) ≤ 0 * r + 1 * o),
      abs_of_neg (by omega : (-1) * r + 1 * o < 0)]
    omega
  · show hexDist (1 * r + 0 * o, 0 * r + 1 * o) = r
    by_cases ho : 0 < o
    · rw [hexDist_eq, if_pos (by omega), abs_of_pos (by omega : (0:ℤ) < 1 * r + 0 * o),
        abs_of_pos (by omega : (0:ℤ) < 0 * r + 1 * o), max_eq_left (by omega)]
      omega
    · rw [hexDist_eq, if_neg (by omega), abs_of_pos (by omega : (0:ℤ) < 1 * r + 0 * o),
        abs_of_nonneg (by omega : (0:ℤ) ≤ 0 * r + 1 * o)]
      omega
  · show hexDist (1 * r + (-1) * o, 1 * r + 0 * o) = r
    rw [hexDist_eq, if_pos (by omega), abs_of_pos (by omega : (0:ℤ) < 1 * r + (-1) * o),
      abs_of_pos (by omega : (0:ℤ) < 1 * r + 0 * o), max_eq_right (by omega)]
    omega
  · show hexDist (0 * r + (-1) * o, 1 * r + (-1) * o) = r
    rw [hexDist_eq, if_neg (by omega), abs_of_nonpos (by omega : 0 * r + (-1) * o ≤ (0:ℤ)),
      abs_of_pos (by omega : (0:ℤ) < 1 * r + (-1) * o)]
    omega
  · show hexDist ((-1) * r + 0 * o, 0 * r + (-1) * o) = r
    by_cases ho : 0 < o
    · rw [hexDist_eq, if_pos (by omega), abs_of_neg (by omega : (-1) * r + 0 * o < 0),
        abs_of_neg (by omega : 0 * r + (-1) * o < 0), max_eq_left (by omega)]
      omega
    · rw [hexDist_eq, if_neg (by omega), abs_of_neg (by omega : (-1) * r + 0 * o < 0),
        abs_of_nonpos (by omega : 0 * r + (-1) * o ≤ (0:ℤ))]
      omega

/-- Every polar point on a ring of radius at least 1 maps to an offset at hex
distance exactly its radius. -/
lemma hexDist_to_v2 (p : PolarPoint) (h : 1 ≤ p.radius) :
    hexDist p.to_v2 = (p.radius : ℤ) := by
  have h0 : ¬p.radius = 0 := by omega
  have hr : (1 : ℤ) ≤ (p.radius : ℤ) := by exact_mod_cast h
  have he0 : 0 ≤ p.winding_index % ((p.radius : ℤ) * 6) := Int.emod_nonneg _ (by omega)
  have he6 : p.winding_index % ((p.radius : ℤ) * 6) < (p.radius : ℤ) * 6 :=
    Int.emod_lt_of_pos _ (by omega)
  have hmod : p.winding_index % ((p.radius : ℤ) * 6) % (p.radius : ℤ) =
      p.winding_index % (p.radius : ℤ) :=
    Int.emod_emod_of_dvd _ ⟨6, by ring⟩
  have ho0 : 0 ≤ p.winding_index % (p.radius : ℤ) := Int.emod_nonneg _ (by omega)
  have hor : p.winding_index % (p.radius : ℤ) < (p.radius : ℤ) :=
    Int.emod_lt_of_pos _ (by omega)
  have hdecomp := Int.ediv_add_emod (p.winding_index % ((p.radius : ℤ) * 6)) (p.radius : ℤ)
  have hs0 : 0 ≤ p.winding_index % ((p.radius : ℤ) * 6) / (p.radius : ℤ) :=
    Int.ediv_nonneg he0 (by omega)
  have hs5 : p.winding_index % ((p.radius : ℤ) * 6) / (p.radius : ℤ) < 6 := by
    by_contra h6
    push_neg at h6
    have hmul : (p.radius : ℤ) * 6 ≤
        (p.radius : ℤ) * (p.winding_index % ((p.radius : ℤ) * 6) / (p.radius : ℤ)) :=
      mul_le_mul_of_nonneg_left h6 (by omega)
    rw [hmod] at hdecomp
    linarith
  unfold PolarPoint.to_v2
  rw [if_neg h0]
  dsimp only
  exact hexDist_ring (p.radius : ℤ) _ _ hr hs0 hs5 ho0 hor

/-- `Arc.advance` acts on the top of the stack only. -/
lemma advance_append {T : Type} (F : FovValue T) (a : Arc T) (tl rest : List (Arc T)) :
    Arc.advance F a (tl ++ rest) = Arc.advance F a tl ++ rest := by
  cases hb : a.pt.next.is_below a.end_
  · cases hg : a.group_value <;> simp [Arc.advance, hb, hg]
  · simp [Arc.advance, hb]

/-- `arc_has_split` acts on the top of the stack only. -/
lemma split_append {T : Type} [DecidableEq T] (F : FovValue T) (a : Arc T)
    (tl rest : List (Arc T)) :
    (Arc.arc_has_split F a (tl ++ rest)).1 = (Arc.arc_has_split F a tl).1 ++ rest ∧
    (Arc.arc_has_split F a (tl ++ rest)).2 = (Arc.arc_has_split F a tl).2 := by
  by_cases hsp : F.advance a.prev_value a.pt.to_v2 = a.group_value
  · rw [arc_has_split_stack_of_eq F a _ hsp, arc_has_split_stack_of_eq F a _ hsp]
    exact ⟨rfl, rfl⟩
  · rw [arc_has_split_stack_of_ne F a _ hsp, arc_has_split_stack_of_ne F a _ hsp]
    cases a.group_value <;> simp

/-- The step reports exhaustion exactly on the empty state. -/
lemma step_done_iff {T : Type} [DecidableEq T] (F : FovValue T) (s : HexFov T) :
    HexFov.step F s = .done ↔ s.stack = [] ∧ s.side_channel = [] := by
  obtain ⟨st, side⟩ := s
  cases side with
  | cons e rest => simp [step_side]
  | nil =>
    cases st with
    | nil => simp [step_done_eq]
    | cons a rest =>
      by_cases hsp : F.advance a.prev_value a.pt.to_v2 = a.group_value
      · rw [step_nosplit F a rest hsp]
        cases hg : a.group_value <;> simp
      · rw [step_split F a rest ((arc_has_split_snd F a rest).mpr hsp)]
        simp

/-- Frame property of an emitting step: extra arcs below the working prefix of
the stack ride along untouched. -/
lemma step_emit_frame {T : Type} [DecidableEq T] (F : FovValue T) {st : List (Arc T)}
    {side : List (Offset × T)} {e : Offset × T} {st' : List (Arc T)}
    {side' : List (Offset × T)}
    (h : HexFov.step F ⟨st, side⟩ = .emit e ⟨st', side'⟩) (rest : List (Arc T)) :
    HexFov.step F ⟨st ++ rest, side⟩ = .emit e ⟨st' ++ rest, side'⟩ := by
  cases side with
  | cons e₀ tl =>
    rw [step_side] at h
    cases h
    exact step_side _ _ _ _
  | nil =>
    cases st with
    | nil => exact absurd h (by rw [step_done_eq]; intro hfalse; cases hfalse)
    | cons a tl =>
      by_cases hsp : F.advance a.prev_value a.pt.to_v2 = a.group_value
      · have hstep := step_nosplit F a tl hsp
        cases hg : a.group_value with
        | some v =>
          rw [hg] at hstep
          rw [hstep] at h
          cases h
          rw [List.cons_append, step_nosplit F a (tl ++ rest) hsp, hg, advance_append]
        | none =>
          rw [hg] at hstep
          rw [hstep] at h
          cases h
      · rw [step_split F a tl ((arc_has_split_snd F a tl).mpr hsp)] at h
        cases h

/-- Frame property of a silent step. -/
lemma step_cont_frame {T : Type} [DecidableEq T] (F : FovValue T) {st : List (Arc T)}
    {side : List (Offset × T)} {st' : List (Arc T)} {side' : List (Offset × T)}
    (h : HexFov.step F ⟨st, side⟩ = .cont ⟨st', side'⟩) (rest : List (Arc T)) :
    HexFov.step F ⟨st ++ rest, side⟩ = .cont ⟨st' ++ rest, side'⟩ := by
  cases side with
  | cons e₀ tl =>
    rw [step_side] at h
    cases h
  | nil =>
    cases st with
    | nil => exact absurd h (by rw [step_done_eq]; intro hfalse; cases hfalse)
    | cons a tl =>
      by_cases hsp : F.advance a.prev_value a.pt.to_v2 = a.group_value
      · have hstep := step_nosplit F a tl hsp
        cases hg : a.group_value with
        | some v =>
          rw [hg] at hstep
          rw [hstep] at h
          cases h
        | none =>
          rw [hg] at hstep
          rw [hstep] at h
          cases h
          rw [List.cons_append, step_nosplit F a (tl ++ rest) hsp, hg, advance_append]
      · have hsb := (arc_has_split_snd F a tl).mpr hsp
        rw [step_split F a tl hsb] at h
        cases h
        rw [List.cons_append,
          step_split F a (tl ++ rest)
            (by rw [(split_append F a tl rest).2]; exact hsb),
          (split_append F a tl rest).1]

/-- Framing of halting: a halting state followed by a halting remainder stack
halts. -/
lemma halts_frame {T : Type} [DecidableEq T] (F : FovValue T) {s : HexFov T}
    (hs : Halts F s) :
    ∀ rest : List (Arc T), Halts F ⟨rest, []⟩ →
      Halts F ⟨s.stack ++ rest, s.side_channel⟩ := by
  induction hs with
  | done h =>
    intro rest hrest
    obtain ⟨h1, h2⟩ := (step_done_iff F _).mp h
    rw [h1, h2, List.nil_append]
    exact hrest
  | emit h _ ih =>
    intro rest hrest
    exact Halts.emit (step_emit_frame F h rest) (ih rest hrest)
  | cont h _ ih =>
    intro rest hrest
    exact Halts.cont (step_cont_frame F h rest) (ih rest hrest)

/-- A state with a halting stack halts whatever its side channel holds. -/
lemma halts_drain {T : Type} [DecidableEq T] (F : FovValue T) (st : List (Arc T))
    (h : Halts F ⟨st, []⟩) : ∀ side : List (Offset × T), Halts F ⟨st, side⟩ := by
  intro side
  induction side with
  | nil => exact h
  | cons e rest ih => exact Halts.emit (step_side F st e rest) ih

/-- The split indicator of the termination measure is at most 1. -/
lemma splMeasure_le_one {T : Type} [DecidableEq T] (F : FovValue T) (a : Arc T) :
    splMeasure F a ≤ 1 := by
  unfold splMeasure
  split <;> omega

/-- Unfolding the boolean half-open comparison. -/
lemma is_below_true_iff (p q : PolarPoint) :
    p.is_below q = true ↔ p.winding_index < q.end_index := by
  simp [PolarPoint.is_below]

/-- Under a visibility radius `R` (every offset at hex distance at least `R`
is opaque), processing a single well-formed arc halts. -/
lemma arc_halts {T : Type} [DecidableEq T] (F : FovValue T) (R : ℤ)
    (hR : ∀ (v : T) (off : Offset), R ≤ hexDist off → F.advance v off = none) :
    ∀ (d c : ℕ) (a : Arc T), GoodArc F R a → (R - (a.pt.radius : ℤ)).toNat = d →
      2 * cells a + splMeasure F a ≤ c → Halts F ⟨[a], []⟩ := by
  intro d
  induction d using Nat.strong_induction_on with
  | _ d ihd =>
  intro c
  induction c using Nat.strong_induction_on with
  | _ c ihc =>
  intro a hgood hd hc
  obtain ⟨⟨h1, h2, h3⟩, hRnone⟩ := hgood
  have hrad1 : 1 ≤ a.pt.radius := by rw [← h1]; exact h3
  by_cases hsp : F.advance a.prev_value a.pt.to_v2 = a.group_value
  · have hspl0 : splMeasure F a = 0 := by simp [splMeasure, hsp]
    have hstep := step_nosplit F a [] hsp
    cases hb : a.pt.next.is_below a.end_ with
    | true =>
      have hadv : Arc.advance F a [] = [{ a with pt := a.pt.next }] := by
        simp [Arc.advance, hb]
      have hlt : a.pt.winding_index + 1 < a.end_.end_index := by
        have hbb := (is_below_true_iff a.pt.next a.end_).mp hb
        rwa [winding_index_next] at hbb
      have hcells : cells a = cells { a with pt := a.pt.next } + 1 := by
        show (a.end_.end_index - a.pt.winding_index).toNat =
          (a.end_.end_index - a.pt.next.winding_index).toNat + 1
        rw [winding_index_next]
        omega
      have hgood' : GoodArc F R { a with pt := a.pt.next } := by
        refine ⟨⟨?_, ?_, h3⟩, ?_⟩
        · show a.begin.radius = a.pt.next.radius
          rw [radius_next]; exact h1
        · show a.pt.next.radius = a.end_.radius
          rw [radius_next]; exact h2
        · show R ≤ (a.pt.next.radius : ℤ) → a.group_value = none
          rw [radius_next]; exact hRnone
      have hmeas : 2 * cells { a with pt := a.pt.next } +
          splMeasure F { a with pt := a.pt.next } < c := by
        have hb1 := splMeasure_le_one F ({ a with pt := a.pt.next } : Arc T)
        omega
      have hd' : (R - (({ a with pt := a.pt.next } : Arc T).pt.radius : ℤ)).toNat = d := by
        show (R - (a.pt.next.radius : ℤ)).toNat = d
        rw [radius_next]; exact hd
      have hhalt' : Halts F ⟨[{ a with pt := a.pt.next }], []⟩ :=
        ihc _ hmeas _ hgood' hd' (le_refl _)
      cases hg2 : a.group_value with
      | some v =>
        rw [hg2] at hstep
        rw [hadv] at hstep
        exact Halts.emit hstep (halts_drain F _ hhalt' _)
      | none =>
        rw [hg2] at hstep
        rw [hadv] at hstep
        exact Halts.cont hstep (halts_drain F _ hhalt' _)
    | false =>
      cases hg2 : a.group_value with
      | none =>
        have hadv : Arc.advance F a [] = [] := by simp [Arc.advance, hb, hg2]
        rw [hg2] at hstep
        rw [hadv] at hstep
        exact Halts.cont hstep (halts_drain F [] (Halts.done (step_done_eq F)) _)
      | some v =>
        have hlt : (a.pt.radius : ℤ) < R := by
          by_contra hge
          push_neg at hge
          rw [hRnone hge] at hg2
          cases hg2
        have hadv : Arc.advance F a [] = [Arc.new F a.begin.further a.end_.further v] := by
          simp [Arc.advance, hb, hg2]
        have hgood'' : GoodArc F R (Arc.new F a.begin.further a.end_.further v) := by
          refine ⟨⟨rfl, ?_, ?_⟩, ?_⟩
          · show a.begin.further.radius = a.end_.further.radius
            rw [further_radius, further_radius, h1, h2]
          · show 1 ≤ a.begin.further.radius
            rw [further_radius]; omega
          · intro hge
            show F.advance v a.begin.further.to_v2 = none
            apply hR
            rw [hexDist_to_v2 a.begin.further (by rw [further_radius]; omega)]
            exact hge
        have hd'' : (R -
            ((Arc.new F a.begin.further a.end_.further v).pt.radius : ℤ)).toNat < d := by
          show (R - (a.begin.further.radius : ℤ)).toNat < d
          rw [further_radius, h1, ← hd]
          omega
        have hhalt'' :=
          ihd _ hd'' (2 * cells (Arc.new F a.begin.further a.end_.further v) +
            splMeasure F (Arc.new F a.begin.further a.end_.further v)) _ hgood'' rfl
            (le_refl _)
        rw [hg2] at hstep
        rw [hadv] at hstep
        exact Halts.emit hstep (halts_drain F _ hhalt'' _)
  · have hlt : (a.pt.radius : ℤ) < R := by
      by_contra hge
      push_neg at hge
      have hnone := hRnone hge
      have hadv_none : F.advance a.prev_value a.pt.to_v2 = none := by
        apply hR
        rw [hexDist_to_v2 a.pt hrad1]
        exact hge
      exact hsp (by rw [hadv_none, hnone])
    have hstep := step_split F a [] ((arc_has_split_snd F a []).mpr hsp)
    have hgoodc : GoodArc F R (⟨a.pt, a.pt, a.end_, a.prev_value,
        F.advance a.prev_value a.pt.to_v2⟩ : Arc T) :=
      ⟨⟨rfl, h2, by rw [← h1]; exact h3⟩, fun hge => absurd hge (not_le.mpr hlt)⟩
    have hcmeas : 2 * cells (⟨a.pt, a.pt, a.end_, a.prev_value,
        F.advance a.prev_value a.pt.to_v2⟩ : Arc T) +
        splMeasure F (⟨a.pt, a.pt, a.end_, a.prev_value,
          F.advance a.prev_value a.pt.to_v2⟩ : Arc T) < c := by
      have hsplc : splMeasure F (⟨a.pt, a.pt, a.end_, a.prev_value,
          F.advance a.prev_value a.pt.to_v2⟩ : Arc T) = 0 := by
        simp [splMeasure]
      have hspl1 : splMeasure F a = 1 := by simp [splMeasure, hsp]
      have hcc : cells (⟨a.pt, a.pt, a.end_, a.prev_value,
          F.advance a.prev_value a.pt.to_v2⟩ : Arc T) = cells a := rfl
      omega
    have hhaltc : Halts F ⟨[⟨a.pt, a.pt, a.end_, a.prev_value,
        F.advance a.prev_value a.pt.to_v2⟩], []⟩ :=
      ihc _ hcmeas _ hgoodc hd (le_refl _)
    cases hg2 : a.group_value with
    | none =>
      have hstack : (Arc.arc_has_split F a []).1 =
          [⟨a.pt, a.pt, a.end_, a.prev_value, F.advance a.prev_value a.pt.to_v2⟩] := by
        rw [arc_has_split_stack_of_ne F a [] hsp, hg2]
        simp
      rw [hstack] at hstep
      exact Halts.cont hstep hhaltc
    | some v =>
      have hgoodext : GoodArc F R (Arc.new F a.begin.further a.pt.further v) := by
        refine ⟨⟨rfl, ?_, ?_⟩, ?_⟩
        · show a.begin.further.radius = a.pt.further.radius
          rw [further_radius, further_radius, h1]
        · show 1 ≤ a.begin.further.radius
          rw [further_radius]; omega
        · intro hge
          show F.advance v a.begin.further.to_v2 = none
          apply hR
          rw [hexDist_to_v2 a.begin.further (by rw [further_radius]; omega)]
          exact hge
      have hdext : (R -
          ((Arc.new F a.begin.further a.pt.further v).pt.radius : ℤ)).toNat < d := by
        show (R - (a.begin.further.radius : ℤ)).toNat < d
        rw [further_radius, h1, ← hd]
        omega
      have hhaltext :=
        ihd _ hdext (2 * cells (Arc.new F a.begin.further a.pt.further v) +
          splMeasure F (Arc.new F a.begin.further a.pt.further v)) _ hgoodext rfl
          (le_refl _)
      have hstack : (Arc.arc_has_split F a []).1 =
          [Arc.new F a.begin.further a.pt.further v,
           ⟨a.pt, a.pt, a.end_, a.prev_value, F.advance a.prev_value a.pt.to_v2⟩] := by
        rw [arc_has_split_stack_of_ne F a [] hsp, hg2]
        simp
      rw [hstack] at hstep
      exact Halts.cont hstep
        (halts_frame F hhaltext
          [⟨a.pt, a.pt, a.end_, a.prev_value, F.advance a.prev_value a.pt.to_v2⟩] hhaltc)

/-- A halting state reports exhaustion under some fuel. -/
lemma halts_runF {T : Type} [DecidableEq T] (F : FovValue T) {s : HexFov T}
    (h : Halts F s) : ∃ n, (HexFov.runF F n s).2 = true := by
  induction h with
  | done h => exact ⟨1, by rw [runF_done F h 0]⟩
  | emit h _ ih =>
    obtain ⟨n, hn⟩ := ih
    exact ⟨n + 1, by rw [runF_emit F h n]; exact hn⟩
  | cont h _ ih =>
    obtain ⟨n, hn⟩ := ih
    exact ⟨n + 1, by rw [runF_cont F h n]; exact hn⟩

/-- C8: when the caller's `advance` never reports opacity the iterator never
reports exhaustion under any fuel (it is infinite, with no internal radius
bound); when there is a radius `R` beyond which `advance` is always opaque,
the iterator reports exhaustion under some fuel. -/
theorem claim_C8_termination :
    (∀ (T : Type) [inst : DecidableEq T] (F : FovValue T) (init : T),
       (∀ (v : T) (off : Offset), F.advance v off ≠ none) →
       ∀ n : ℕ, (HexFov.runF F n (HexFov.new F init)).2 = false) ∧
    (∀ (T : Type) [inst : DecidableEq T] (F : FovValue T) (init : T) (R : ℤ),
       (∀ (v : T) (off : Offset), R ≤ hexDist off → F.advance v off = none) →
       ∃ n : ℕ, (HexFov.runF F n (HexFov.new F init)).2 = true) := by
  constructor
  · intro T _ F init h n
    exact runF_never_halts F h n (HexFov.new F init) (by simp [HexFov.new])
  · intro T _ F init R hR
    have hseed : GoodArc F R (Arc.new F (PolarPoint.new (Frac.ofInt 0) 1)
        (PolarPoint.new (Frac.ofInt 6) 1) init) := by
      refine ⟨⟨rfl, rfl, le_refl 1⟩, ?_⟩
      intro hge
      show F.advance init (PolarPoint.new (Frac.ofInt 0) 1).to_v2 = none
      apply hR
      rw [hexDist_to_v2 (PolarPoint.new (Frac.ofInt 0) 1) (le_refl 1)]
      exact hge
    have hhalt := arc_halts F R hR _ _ _ hseed rfl (le_refl _)
    have hdrain := halts_drain F _ hhalt (HexFov.new F init).side_channel
    exact halts_runF F hdrain

/-- C8 witness: the always-transparent value never exhausts within fuel 5,
while the fixed radius-2 value exhausts within some fuel. -/
theorem claim_C8_witness :
    (HexFov.runF transparentFov 5 (HexFov.new transparentFov 0)).2 = false ∧
    ∃ n : ℕ, (HexFov.runF fixedRange n (HexFov.new fixedRange 0)).2 = true :=
  ⟨claim_C8_termination.1 ℤ transparentFov 0 (fun v off => by simp [transparentFov]) 5,
   claim_C8_termination.2 ℤ fixedRange 0 2
     (fun v off h => by simp only [fixedRange]; rw [if_neg (by omega)])⟩

end CalxGrid
